import Mathlib

/-!
Shallow embedding of the CV-triage organizer core of `src/main.py` (class
`MainWindow`), together with theorems settling the claims about it.

Modelling conventions:
  * Paths and names are Lean `String`s; helper operations mirror the Python
    `os.path` functions used by the source (`join`, `basename`, `splitext`).
  * The filesystem is a pair of lists of absolute paths (`files`, `dirs`);
    `os.path.exists` is membership in either, `os.path.isdir` membership in
    `dirs`, `os.listdir` extracts the direct children.  The order of a
    directory listing is unspecified by the OS; the model uses the order of
    the underlying path lists.
  * Python dicts (`reason_map`, `email_map`, `cand_email_map`) are modelled
    as association lists with Python's insertion-order/overwrite semantics.
  * `current_index` is an `Int`, as in Python (it takes the value -1).
  * GUI side effects (dialogs, the PDF viewer, status bar) and the JSON
    (de)serialisation are outside the model; an operation that reports an
    error and returns without mutating state is modelled as `none` (for
    move/hold) or as an explicit outcome (for undo).
  * Python's `str(counter)` (decimal rendering, no leading zeros) is
    modelled by `natDec`; Python's `\w` and `\s` character classes are
    modelled by ASCII alphanumerics/underscore and ASCII whitespace, which
    is the fragment exercised by the program's data.
-/

/-- Model of `os.path.join a b` for the absolute paths the program builds. -/
def pjoin (a b : String) : String := a ++ "/" ++ b

/-- Model of `os.path.basename`: the part after the last slash. -/
def basename (p : String) : String :=
  ⟨(p.data.reverse.takeWhile (fun c => c ≠ '/')).reverse⟩

/-- Model of `os.path.dirname`: the part before the last slash. -/
def dirname (p : String) : String :=
  ⟨(p.data.reverse.drop (p.data.reverse.takeWhile (fun c => c ≠ '/')).length.succ).reverse⟩

/-- Index of the extension separator used by `os.path.splitext`: the position
of the last dot, provided some earlier character of the name is not a dot
(leading dots do not start an extension). -/
def splitextIdx (l : List Char) : Option Nat :=
  match l.reverse.findIdx? (fun c => c = '.') with
  | none => none
  | some rj =>
      let i := l.length - 1 - rj
      if (l.take i).any (fun c => c ≠ '.') then some i else none

/-- Model of `os.path.splitext name`: splits a filename into stem and
extension (the extension includes the dot). -/
def splitext (s : String) : String × String :=
  match splitextIdx s.data with
  | none => (s, "")
  | some i => (⟨s.data.take i⟩, ⟨s.data.drop i⟩)

/-- Decimal digit characters, for rendering counters. -/
def decDigitChar (d : Nat) : Char :=
  match d with
  | 0 => '0' | 1 => '1' | 2 => '2' | 3 => '3' | 4 => '4'
  | 5 => '5' | 6 => '6' | 7 => '7' | 8 => '8' | 9 => '9'
  | _ => '*'

/-- Model of Python's `str(n)` for a non-negative integer: standard decimal
rendering without leading zeros. -/
def natDec (n : Nat) : String :=
  if n = 0 then "0" else ⟨((Nat.digits 10 n).reverse.map decDigitChar)⟩

/-- Model of Python's `\s` class (ASCII fragment): space, tab, CR, LF. -/
def pySpace (c : Char) : Bool := c.isWhitespace

/-- Model of Python's `\w` class (ASCII fragment): alphanumerics and the
underscore. -/
def pyWordChar (c : Char) : Bool := c.isAlphanum || c = '_'

/-- Replace each maximal run of whitespace by a single space, modelling
`re.sub(r'\s+', ' ', s)`. -/
def collapseWs (l : List Char) : List Char :=
  l.foldr
    (fun c acc =>
      if pySpace c then
        match acc with
        | ' ' :: _ => acc
        | _ => ' ' :: acc
      else c :: acc)
    []

/-- Model of Python's `str.strip()`: drop leading and trailing whitespace. -/
def pyStrip (l : List Char) : List Char :=
  ((l.dropWhile pySpace).reverse.dropWhile pySpace).reverse

/-- String-level `strip`, used on the CSV email field. -/
def pyStripStr (s : String) : String := ⟨pyStrip s.data⟩

/-- Lowercasing a string character by character, modelling `str.lower()`
(ASCII fragment). -/
def lowerStr (s : String) : String := ⟨s.data.map Char.toLower⟩

/-- Boolean suffix test on strings. -/
def endsWithStr (s suf : String) : Bool := suf.data.isSuffixOf s.data

/-- The `MainWindow.normalize_name` pipeline: strip characters outside
`[\w\s]`, lowercase, collapse whitespace runs to single spaces, strip. -/
def normalize_name (name : String) : String :=
  let clean1 := name.data.filter (fun c => pyWordChar c || pySpace c)
  let clean2 := clean1.map Char.toLower
  ⟨pyStrip (collapseWs clean2)⟩

/-- Association-list model of a Python `dict` from strings to strings:
lookup returns the value of the first (unique) matching key. -/
def dictGet (m : List (String × String)) (k : String) : Option String :=
  (m.find? (fun e => e.1 == k)).map (fun e => e.2)

/-- Python `d[k] = v`: overwrite in place if the key is present, else append
(insertion order preserved). -/
def dictInsert (m : List (String × String)) (k v : String) : List (String × String) :=
  if m.any (fun e => e.1 == k) then
    m.map (fun e => if e.1 == k then (k, v) else e)
  else m ++ [(k, v)]

/-- Python's `d.get(k) or fallback` chain treats the empty string as absent;
this returns the value only when present and non-empty. -/
def dictGetTruthy (m : List (String × String)) (k : String) : Option String :=
  match dictGet m k with
  | some v => if v = "" then none else some v
  | none => none

/-- The filesystem model: lists of existing file paths and directory paths. -/
structure FS where
  files : List String
  dirs : List String
  deriving Repr, DecidableEq

/-- Model of `os.path.exists`. -/
def osExists (fs : FS) (p : String) : Bool :=
  fs.files.contains p || fs.dirs.contains p

/-- Model of `os.makedirs(..., exist_ok=True)` for an explicitly given chain
of directories to create (ancestors above the base folder already exist). -/
def osMakedirs (fs : FS) (ds : List String) : FS :=
  { fs with dirs := ds.foldl (fun acc d => if acc.contains d then acc else acc ++ [d]) fs.dirs }

/-- The direct-child name of `p` inside directory `d`, when `p` lies directly
under `d`. -/
def childName (d p : String) : Option String :=
  let dl := d.data
  if p.data.take (dl.length + 1) = dl ++ ['/'] then
    let rest := p.data.drop (dl.length + 1)
    if rest ≠ [] ∧ rest.contains '/' = false then some ⟨rest⟩ else none
  else none

/-- Model of `os.listdir d`: names of the files and directories directly
under `d`. -/
def listdir (fs : FS) (d : String) : List String :=
  (fs.files ++ fs.dirs).filterMap (childName d)

/-- Model of `shutil.move src dest` on the file list (both are file paths;
the caller has ensured `dest` is fresh). -/
def fsMove (fs : FS) (src dest : String) : FS :=
  { fs with files := dest :: fs.files.erase src }

/-- The loaded configuration (`config.json` merged over `DEFAULT_CONFIG`):
the fields the organizer core reads. -/
structure Config where
  reason_map : List (String × String)
  hold_folder : String
  email_map : List (String × String)
  max_undo : Nat
  deriving Repr, DecidableEq

/-- Kind of a recorded operation (the `'type'` field of the dict pushed on
`undo_stack`). -/
inductive OpKind where
  | reject
  | holdK
  deriving Repr, DecidableEq

/-- A recorded reversible operation, as pushed on `self.undo_stack` by
`move_current` and `hold` (the `'reason'` key is present only for rejects;
`position` is `self.current_index` at the time of the move, which the guards
ensure is non-negative). -/
structure Operation where
  src : String
  dest : String
  kind : OpKind
  reason : Option String
  filename : String
  position : Nat
  deriving Repr, DecidableEq

/-- The organizer-relevant mutable state of `MainWindow`, together with the
modelled filesystem it acts on. -/
structure OrgState where
  cv_list : List String
  current_index : Int
  undo_stack : List Operation
  base_folder : String
  cand_email_map : List (String × String)
  config : Config
  fs : FS
  deriving Repr, DecidableEq

/-- The candidate name `f"{base}_{counter}{ext}"` tried by
`MainWindow.unique_dest`. -/
def mkCand (base ext : String) (counter : Nat) : String :=
  base ++ "_" ++ natDec counter ++ ext

/-- The candidate-generation loop of `MainWindow.unique_dest`: while the
joined candidate exists, try `f"{base}_{counter}{ext}"` with the next
counter.  The Python loop is bounded by the (finite) filesystem; the
embedding uses explicit fuel, and the freshness theorem below shows the
fuel chosen by `unique_dest` never runs out. -/
def uniqueDestAux (ex : String → Bool) (dir base ext : String) :
    Nat → Nat → String → String
  | 0, _, cand => cand
  | fuel + 1, counter, cand =>
      if ex (pjoin dir cand) then
        uniqueDestAux ex dir base ext fuel (counter + 1) (mkCand base ext counter)
      else cand

/-- `MainWindow.unique_dest(directory, name)`: first candidate name that
does not exist in the target directory, starting from `name` itself. -/
def unique_dest (fs : FS) (dir name : String) : String :=
  let be := splitext name
  uniqueDestAux (fun p => osExists fs p) dir be.1 be.2
    (fs.files.length + fs.dirs.length + 1) 1 name

/-- Append to the undo stack and evict the oldest entry when the configured
bound is exceeded (`undo_stack.append(...)` followed by
`if len(undo_stack) > max_undo: undo_stack.pop(0)`). -/
def pushBounded (stack : List Operation) (op : Operation) (maxUndo : Nat) :
    List Operation :=
  let st := stack ++ [op]
  if maxUndo < st.length then st.drop 1 else st

/-- Glob match for the pattern `*.pdf` as `glob.glob` applies it on a POSIX
system: case-sensitive suffix match, names starting with a dot excluded. -/
def globPdfMatch (n : String) : Bool :=
  (n.data.head? ≠ some '.') && endsWithStr n ".pdf"

/-- Codepoint-lexicographic order on strings, the order Python's string
comparison uses. -/
def strLe (a b : String) : Prop := a.data ≤ b.data

instance : DecidableRel strLe := fun a b =>
  inferInstanceAs (Decidable (a.data ≤ b.data))

/-- Ascending lexicographic sort of a list of paths, modelling Python's
`sorted` (any sorted permutation of a multiset of strings is the same
list, so the choice of sorting algorithm is immaterial). -/
def sortStrings (l : List String) : List String :=
  l.insertionSort strLe

instance : IsTotal String strLe := ⟨fun a b => le_total a.data b.data⟩

instance : IsTrans String strLe := ⟨fun _ _ _ h1 h2 => le_trans h1 h2⟩

/-- `MainWindow.open_folder` on a chosen directory `d`: reset the queue to
the sorted glob of `d/*.pdf`, the cursor to 0 (or -1 when empty), and clear
the undo stack.  (The session snapshot save has no effect on the model.) -/
def open_folder (d : String) (s : OrgState) : OrgState :=
  let pdfs := sortStrings (((listdir s.fs d).filter globPdfMatch).map (pjoin d))
  { s with base_folder := d
           cv_list := pdfs
           current_index := if pdfs = [] then -1 else 0
           undo_stack := [] }

/-- Common tail of `move_current` and `hold`: move the current file to
`dest_dir`, record the operation, evict beyond `max_undo`, drop the queue
entry at the cursor and clamp the cursor. -/
def moveCore (s : OrgState) (fs1 : FS) (dest_dir : String)
    (kind : OpKind) (reason : Option String) : OrgState :=
  let idx := s.current_index.toNat
  let src := s.cv_list.getD idx ""
  let name := basename src
  let uniq := unique_dest fs1 dest_dir name
  let dest := pjoin dest_dir uniq
  let fs2 := fsMove fs1 src dest
  let op : Operation := ⟨src, dest, kind, reason, name, idx⟩
  let stack' := pushBounded s.undo_stack op s.config.max_undo
  let cv' := s.cv_list.eraseIdx idx
  let idx' : Int :=
    if cv' = [] then -1
    else if (cv'.length : Int) ≤ (idx : Int) then (cv'.length : Int) - 1
    else (idx : Int)
  { s with fs := fs2
           undo_stack := stack'
           cv_list := cv'
           current_index := idx' }

/-- `MainWindow.move_current(reason_key)`: `none` models the guarded early
returns (invalid cursor, unknown reason key, source file missing, or
`os.makedirs` failing because a file occupies a directory path); `some`
is the successful move. -/
def move_current (key : String) (s : OrgState) : Option OrgState :=
  if s.cv_list = [] then none
  else if s.current_index < 0 then none
  else if (s.cv_list.length : Int) ≤ s.current_index then none
  else
    match dictGet s.config.reason_map key with
    | none => none
    | some folder =>
        let src := s.cv_list.getD s.current_index.toNat ""
        if osExists s.fs src = false then none
        else
          let rej := pjoin s.base_folder "Rejected"
          let dest_dir := pjoin rej folder
          if rej ∈ s.fs.files ∨ dest_dir ∈ s.fs.files then none
          else
            let fs1 := osMakedirs s.fs [rej, dest_dir]
            some (moveCore s fs1 dest_dir OpKind.reject (some key))

/-- `MainWindow.hold`: like `move_current` with destination
`base/<hold_folder>` and no reason key. -/
def hold (s : OrgState) : Option OrgState :=
  if s.cv_list = [] then none
  else if s.current_index < 0 then none
  else if (s.cv_list.length : Int) ≤ s.current_index then none
  else
    let src := s.cv_list.getD s.current_index.toNat ""
    if osExists s.fs src = false then none
    else
      let hold_dir := pjoin s.base_folder s.config.hold_folder
      if hold_dir ∈ s.fs.files then none
      else
        let fs1 := osMakedirs s.fs [hold_dir]
        some (moveCore s fs1 hold_dir OpKind.holdK none)

/-- Outcome of an `undo` call, mirroring the branches of
`MainWindow.undo`. -/
inductive UndoOutcome where
  | nothingToUndo
  | destMissing
  | declined
  | removeFailed
  | done
  deriving Repr, DecidableEq

/-- `MainWindow.undo`: pop the most recent operation, then either report a
conflict (popped entry lost) or move the file back and reinsert its path at
the recorded position.  `confirm` is the user's answer to the
overwrite-confirmation dialog. -/
def undo (confirm : Bool) (s : OrgState) : OrgState × UndoOutcome :=
  match s.undo_stack.getLast? with
  | none => (s, UndoOutcome.nothingToUndo)
  | some op =>
      let stack' := s.undo_stack.dropLast
      let fs1 := osMakedirs s.fs [dirname op.src]
      if osExists fs1 op.dest = false then
        ({ s with undo_stack := stack', fs := fs1 }, UndoOutcome.destMissing)
      else
        let finish : FS → OrgState × UndoOutcome := fun fsr =>
          let insertIndex := min op.position s.cv_list.length
          ({ s with undo_stack := stack'
                    fs := fsMove fsr op.dest op.src
                    cv_list := s.cv_list.insertIdx insertIndex op.src
                    current_index := (insertIndex : Int) },
           UndoOutcome.done)
        if osExists fs1 op.src then
          if confirm then
            if op.src ∈ fs1.files then
              finish { fs1 with files := fs1.files.erase op.src }
            else
              ({ s with undo_stack := stack', fs := fs1 }, UndoOutcome.removeFailed)
          else
            ({ s with undo_stack := stack', fs := fs1 }, UndoOutcome.declined)
        else finish fs1

/-- A user action driving the organizer: reject with a reason key, or hold. -/
inductive Act where
  | rej (key : String)
  | holdA
  deriving Repr, DecidableEq

/-- Apply one action. -/
def applyAct (a : Act) (s : OrgState) : Option OrgState :=
  match a with
  | Act.rej k => move_current k s
  | Act.holdA => hold s

/-- Run a sequence of actions, all of which must succeed. -/
def runOps : List Act → OrgState → Option OrgState
  | [], s => some s
  | a :: rest, s => (applyAct a s).bind (runOps rest)

/-- One undo call that must fully succeed (outcome `done`); the conflict
dialog, if reached, is declined. -/
def undoStep (s : OrgState) : Option OrgState :=
  match undo false s with
  | (t, UndoOutcome.done) => some t
  | _ => none

/-- `n` consecutive fully-successful undo calls. -/
def undoAll : Nat → OrgState → Option OrgState
  | 0, s => some s
  | n + 1, s => (undoStep s).bind (undoAll n)

/-- `MainWindow.import_emails`, applied to the parsed CSV rows (name, email):
for each row whose normalized name and stripped email are non-empty, store
the email under the normalized key in both the session cache
`cand_email_map` and the persistent `config['email_map']`.  (File dialog,
header validation and the config write are outside the model.) -/
def import_emails (rows : List (String × String)) (s : OrgState) : OrgState :=
  rows.foldl
    (fun t r =>
      let key := normalize_name r.1
      let email := pyStripStr r.2
      if key ≠ "" ∧ email ≠ "" then
        { t with cand_email_map := dictInsert t.cand_email_map key email
                 config := { t.config with email_map := dictInsert t.config.email_map key email } }
      else t)
    s

/-- One row of the rejection CSV produced by `export_csv`. -/
structure Row where
  filename : String
  reasonKey : String
  reasonText : String
  email : String
  deriving Repr, DecidableEq

/-- The rows `MainWindow.export_csv` collects before writing: scan
`base/Rejected/<folder>` for every reason-map entry, and for every name with
a case-insensitive `.pdf` suffix look the email up by the raw filename stem,
first in the session cache, then in the persistent map (empty values are
falsy and fall through). -/
def export_csv (s : OrgState) : List Row :=
  if s.base_folder = "" then []
  else
    let rejected := pjoin s.base_folder "Rejected"
    if osExists s.fs rejected = false then []
    else
      s.config.reason_map.flatMap
        (fun kf =>
          let path := pjoin rejected kf.2
          if path ∈ s.fs.dirs then
            ((listdir s.fs path).filter (fun n => endsWithStr (lowerStr n) ".pdf")).map
              (fun n =>
                let base := (splitext n).1
                let email :=
                  match dictGetTruthy s.cand_email_map base with
                  | some e => e
                  | none =>
                      match dictGetTruthy s.config.email_map base with
                      | some e => e
                      | none => ""
                ⟨n, kf.1, kf.2, email⟩)
          else [])

/-- Contents of a session-state file as `load_session_state` reads it. -/
structure SavedState where
  base_folder : String
  cv_list : List String
  current_index : Int
  undo_stack : List Operation
  cand_email_map : List (String × String)
  deriving Repr, DecidableEq

/-- `MainWindow.load_session_state` on a successfully parsed state dict:
restore the fields, then clamp `current_index` from above only
(`if current_index >= len(cv_list): current_index = max(0, len-1) if cv_list
else -1`). -/
def load_session_state (st : SavedState) (s : OrgState) : OrgState :=
  let idx : Int :=
    if (st.cv_list.length : Int) ≤ st.current_index then
      if st.cv_list = [] then -1 else max 0 ((st.cv_list.length : Int) - 1)
    else st.current_index
  { s with base_folder := st.base_folder
           cv_list := st.cv_list
           current_index := idx
           undo_stack := st.undo_stack
           cand_email_map := st.cand_email_map }

/-- The CvQueue invariant stated by the spec: no duplicate paths, and the
cursor is -1 exactly when the queue is empty, otherwise a valid index. -/
def CvInvariant (s : OrgState) : Prop :=
  s.cv_list.Nodup ∧
    (if s.cv_list = [] then s.current_index = -1
     else 0 ≤ s.current_index ∧ s.current_index < (s.cv_list.length : Int))

instance (s : OrgState) : Decidable (CvInvariant s) := by
  unfold CvInvariant
  infer_instance

/-- The ledger–queue invariant the mutating operations maintain: the CvQueue
invariant itself, no recorded operation's source path still in the queue,
and pairwise-distinct recorded source paths. -/
def FullInv (s : OrgState) : Prop :=
  CvInvariant s ∧
    (∀ op ∈ s.undo_stack, op.src ∉ s.cv_list) ∧
    (s.undo_stack.map (fun op => op.src)).Nodup

instance (s : OrgState) : Decidable (FullInv s) := by
  unfold FullInv
  infer_instance

/-- The full paths examined by the `unique_dest` loop started at candidate
`cand` with counter `counter` and the given amount of fuel (the path the
loop would try next when the fuel runs out is included). -/
def visitedPaths (dir base ext : String) : Nat → Nat → String → List String
  | 0, _, cand => [pjoin dir cand]
  | fuel + 1, counter, cand =>
      pjoin dir cand :: visitedPaths dir base ext fuel (counter + 1) (mkCand base ext counter)

/-- Default configuration of the application (`DEFAULT_CONFIG`), used for
concrete instances. -/
def exCfg : Config :=
  ⟨[("1", "UnsatisfactoryEducation"), ("2", "UnsatisfactoryExperience"), ("3", "Other")],
   "HoldForReview", [], 100⟩

/-- The default configuration with `max_undo` set to 1, for the eviction
scenarios. -/
def exCfg1 : Config :=
  ⟨[("1", "UnsatisfactoryEducation"), ("2", "UnsatisfactoryExperience"), ("3", "Other")],
   "HoldForReview", [], 1⟩

/-- A concrete folder holding two candidate PDFs. -/
def exFS : FS := ⟨["/b/Jane Doe.pdf", "/b/a.pdf"], ["/b"]⟩

/-- Fresh application state (fields as initialised in `__init__`) over
`exFS` with the default configuration. -/
def exInit : OrgState := ⟨[], -1, [], "", [], exCfg, exFS⟩

/-- Fresh application state over `exFS` with `max_undo = 1`. -/
def exInit1 : OrgState := ⟨[], -1, [], "", [], exCfg1, exFS⟩

/-- The state after opening the folder `/b` of `exFS`. -/
def exOpen : OrgState := open_folder "/b" exInit

/-- The state after opening the folder `/b` with `max_undo = 1`. -/
def exOpen1 : OrgState := open_folder "/b" exInit1

/-- A filesystem whose base folder already contains a populated
`Rejected` tree from an earlier run. -/
def exFSRejected : FS :=
  ⟨["/b/Rejected/Other/x.pdf"], ["/b", "/b/Rejected", "/b/Rejected/Other"]⟩

/-- Fresh application state over `exFSRejected`. -/
def exInitRejected : OrgState := ⟨[], -1, [], "", [], exCfg, exFSRejected⟩

/-- A filesystem whose only candidate file has an upper-case `.PDF`
extension. -/
def exFSUpper : FS := ⟨["/d/B.PDF"], ["/d"]⟩

/-- Fresh application state over `exFSUpper`. -/
def exInitUpper : OrgState := ⟨[], -1, [], "", [], exCfg, exFSUpper⟩

/-- A hold operation recorded for `/b/y.pdf` whose destination file has
since disappeared from disk. -/
def exOpGoneOlder : Operation :=
  ⟨"/b/y.pdf", "/b/HoldForReview/y.pdf", OpKind.holdK, none, "y.pdf", 0⟩

/-- A hold operation recorded for `/b/x.pdf` whose destination file has
since disappeared from disk. -/
def exOpGone : Operation :=
  ⟨"/b/x.pdf", "/b/HoldForReview/x.pdf", OpKind.holdK, none, "x.pdf", 0⟩

/-- A state whose two ledger entries both point at destinations that no
longer exist on disk. -/
def exStateGone : OrgState :=
  ⟨["/b/a.pdf"], 0, [exOpGoneOlder, exOpGone], "/b", [], exCfg, ⟨["/b/a.pdf"], ["/b"]⟩⟩

/-! ### Character-level helper lemmas -/

lemma char_ofNat_toNat_valid (n : Nat) (h : Nat.isValidChar n) :
    (Char.ofNat n).toNat = n := by
  simp only [Char.ofNat]
  rw [dif_pos h]
  rfl

lemma toLower_eq_underscore_iff (c : Char) : Char.toLower c = '_' ↔ c = '_' := by
  constructor
  · intro h
    by_cases hcond : c.toNat ≥ 65 ∧ c.toNat ≤ 90
    · have hv : Nat.isValidChar (c.toNat + 32) := Or.inl (by omega)
      have h2 := congrArg Char.toNat h
      simp only [Char.toLower] at h2
      rw [if_pos hcond, char_ofNat_toNat_valid _ hv] at h2
      have h3 : ('_').toNat = 95 := rfl
      omega
    · simpa [Char.toLower, hcond] using h
  · intro h
    subst h
    decide

lemma count_underscore_map_toLower (l : List Char) :
    (l.map Char.toLower).count '_' = l.count '_' := by
  induction l with
  | nil => rfl
  | cons c t ih =>
    simp only [List.map_cons, List.count_cons, ih]
    congr 1
    by_cases hc : c = '_'
    · subst hc; decide
    · have : Char.toLower c ≠ '_' := fun h => hc ((toLower_eq_underscore_iff c).1 h)
      simp [hc, this]

lemma count_underscore_collapseWs (l : List Char) :
    (collapseWs l).count '_' = l.count '_' := by
  induction l with
  | nil => rfl
  | cons c t ih =>
    have step : collapseWs (c :: t) =
        if pySpace c then
          (match collapseWs t with
            | ' ' :: _ => collapseWs t
            | _ => ' ' :: collapseWs t)
        else c :: collapseWs t := by
      simp only [collapseWs, List.foldr_cons]
    rw [step]
    by_cases hc : pySpace c = true
    · have hne : (c == '_') = false := by
        have : c ≠ '_' := by
          intro h; subst h; exact absurd hc (by decide)
        simp [this]
      rw [if_pos hc]
      have hcount : (match collapseWs t with
          | ' ' :: _ => collapseWs t
          | _ => ' ' :: collapseWs t).count '_' = (collapseWs t).count '_' := by
        split
        · rfl
        · simp [List.count_cons]
      rw [hcount, ih]
      simp [List.count_cons, hne]
    · rw [if_neg hc]
      simp [List.count_cons, ih]

lemma count_dropWhile_of_ne (p : Char → Bool) (a : Char) (l : List Char)
    (h : ∀ c, p c = true → c ≠ a) :
    (l.dropWhile p).count a = l.count a := by
  induction l with
  | nil => rfl
  | cons c t ih =>
    rw [List.dropWhile_cons]
    by_cases hc : p c = true
    · have : (c == a) = false := by simp [h c hc]
      simp [hc, ih, List.count_cons, this]
    · simp [hc]

lemma count_underscore_pyStrip (l : List Char) :
    (pyStrip l).count '_' = l.count '_' := by
  have hws : ∀ c, pySpace c = true → c ≠ '_' := by
    intro c hc heq
    subst heq
    exact absurd hc (by decide)
  unfold pyStrip
  rw [List.count_reverse, count_dropWhile_of_ne _ _ _ hws, List.count_reverse,
    count_dropWhile_of_ne _ _ _ hws]

/-- C9: `normalize_name` preserves every underscore of its input (the
stripping pattern `[^\w\s]` treats `_` as a word character, and
lowercasing, whitespace collapsing and stripping never touch it), so two
names differing only by an underscore normalize to different keys. -/
theorem c9_normalize_name_preserves_underscore (name : String) :
    (normalize_name name).data.count '_' = name.data.count '_' ∧
      normalize_name "a_b" ≠ normalize_name "ab" := by
  refine ⟨?_, by decide⟩
  show (pyStrip (collapseWs ((name.data.filter
      (fun c => pyWordChar c || pySpace c)).map Char.toLower))).count '_' = _
  rw [count_underscore_pyStrip, count_underscore_collapseWs,
    count_underscore_map_toLower, List.count_filter]
  decide

/-! ### Inversion lemmas for the mutating operations -/

lemma moveCore_eq (s : OrgState) (fs1 : FS) (dd : String) (k : OpKind) (r : Option String) :
    moveCore s fs1 dd k r =
      { s with
        fs := fsMove fs1 (s.cv_list.getD s.current_index.toNat "")
          (pjoin dd (unique_dest fs1 dd (basename (s.cv_list.getD s.current_index.toNat ""))))
        undo_stack := pushBounded s.undo_stack
          ⟨s.cv_list.getD s.current_index.toNat "",
           pjoin dd (unique_dest fs1 dd (basename (s.cv_list.getD s.current_index.toNat ""))),
           k, r, basename (s.cv_list.getD s.current_index.toNat ""), s.current_index.toNat⟩
          s.config.max_undo
        cv_list := s.cv_list.eraseIdx s.current_index.toNat
        current_index :=
          if s.cv_list.eraseIdx s.current_index.toNat = [] then -1
          else if ((s.cv_list.eraseIdx s.current_index.toNat).length : Int) ≤
              (s.current_index.toNat : Int) then
            ((s.cv_list.eraseIdx s.current_index.toNat).length : Int) - 1
          else (s.current_index.toNat : Int) } := rfl

lemma move_current_inv {key : String} {s s' : OrgState}
    (h : move_current key s = some s') :
    (s.cv_list ≠ [] ∧ 0 ≤ s.current_index ∧ s.current_index < (s.cv_list.length : Int)) ∧
      ∃ folder,
        dictGet s.config.reason_map key = some folder ∧
        s' = moveCore s
          (osMakedirs s.fs [pjoin s.base_folder "Rejected",
            pjoin (pjoin s.base_folder "Rejected") folder])
          (pjoin (pjoin s.base_folder "Rejected") folder) OpKind.reject (some key) := by
  unfold move_current at h
  by_cases h1 : s.cv_list = []
  · rw [if_pos h1] at h; exact absurd h (by simp)
  rw [if_neg h1] at h
  by_cases h2 : s.current_index < 0
  · rw [if_pos h2] at h; exact absurd h (by simp)
  rw [if_neg h2] at h
  by_cases h3 : (s.cv_list.length : Int) ≤ s.current_index
  · rw [if_pos h3] at h; exact absurd h (by simp)
  rw [if_neg h3] at h
  cases hf : dictGet s.config.reason_map key with
  | none => rw [hf] at h; exact absurd h (by simp)
  | some folder =>
    rw [hf] at h
    simp only [] at h
    by_cases h4 : osExists s.fs (s.cv_list.getD s.current_index.toNat "") = false
    · rw [if_pos h4] at h; exact absurd h (by simp)
    rw [if_neg h4] at h
    by_cases h5 : pjoin s.base_folder "Rejected" ∈ s.fs.files ∨
        pjoin (pjoin s.base_folder "Rejected") folder ∈ s.fs.files
    · rw [if_pos h5] at h; exact absurd h (by simp)
    rw [if_neg h5] at h
    refine ⟨⟨h1, by omega, by omega⟩, folder, rfl, ?_⟩
    exact (Option.some.injEq _ _ ▸ h).symm

lemma hold_inv {s s' : OrgState} (h : hold s = some s') :
    (s.cv_list ≠ [] ∧ 0 ≤ s.current_index ∧ s.current_index < (s.cv_list.length : Int)) ∧
      s' = moveCore s (osMakedirs s.fs [pjoin s.base_folder s.config.hold_folder])
        (pjoin s.base_folder s.config.hold_folder) OpKind.holdK none := by
  unfold hold at h
  by_cases h1 : s.cv_list = []
  · rw [if_pos h1] at h; exact absurd h (by simp)
  rw [if_neg h1] at h
  by_cases h2 : s.current_index < 0
  · rw [if_pos h2] at h; exact absurd h (by simp)
  rw [if_neg h2] at h
  by_cases h3 : (s.cv_list.length : Int) ≤ s.current_index
  · rw [if_pos h3] at h; exact absurd h (by simp)
  rw [if_neg h3] at h
  simp only [] at h
  by_cases h4 : osExists s.fs (s.cv_list.getD s.current_index.toNat "") = false
  · rw [if_pos h4] at h; exact absurd h (by simp)
  rw [if_neg h4] at h
  by_cases h5 : pjoin s.base_folder s.config.hold_folder ∈ s.fs.files
  · rw [if_pos h5] at h; exact absurd h (by simp)
  rw [if_neg h5] at h
  refine ⟨⟨h1, by omega, by omega⟩, ?_⟩
  exact (Option.some.injEq _ _ ▸ h).symm

lemma applyAct_spec {a : Act} {s s' : OrgState} (h : applyAct a s = some s') :
    s.cv_list ≠ [] ∧ 0 ≤ s.current_index ∧ s.current_index < (s.cv_list.length : Int) ∧
      s'.base_folder = s.base_folder ∧ s'.cand_email_map = s.cand_email_map ∧
      s'.config = s.config ∧
      s'.cv_list = s.cv_list.eraseIdx s.current_index.toNat ∧
      s'.current_index =
        (if s.cv_list.eraseIdx s.current_index.toNat = [] then -1
         else if ((s.cv_list.eraseIdx s.current_index.toNat).length : Int) ≤
             (s.current_index.toNat : Int) then
           ((s.cv_list.eraseIdx s.current_index.toNat).length : Int) - 1
         else (s.current_index.toNat : Int)) ∧
      ∃ op : Operation,
        op.src = s.cv_list.getD s.current_index.toNat "" ∧
        op.position = s.current_index.toNat ∧
        s'.undo_stack = pushBounded s.undo_stack op s.config.max_undo := by
  cases a with
  | rej key =>
    obtain ⟨⟨h1, h2, h3⟩, folder, _, heq⟩ := move_current_inv h
    subst heq
    rw [moveCore_eq]
    refine ⟨h1, h2, h3, rfl, rfl, rfl, rfl, rfl, _, rfl, rfl, rfl⟩
  | holdA =>
    obtain ⟨⟨h1, h2, h3⟩, heq⟩ := hold_inv h
    subst heq
    rw [moveCore_eq]
    refine ⟨h1, h2, h3, rfl, rfl, rfl, rfl, rfl, _, rfl, rfl, rfl⟩

/-- C10: a successful `move_current` or `hold` removes exactly the queue
element at the cursor (all other elements keep their value and relative
order, as expressed by `List.eraseIdx`), and leaves `base_folder`,
`cand_email_map` and the loaded configuration (`reason_map`, `hold_folder`,
`email_map`, `max_undo`) unchanged. -/
theorem c10_move_hold_frame (key : String) (s s1 s2 : OrgState) :
    (move_current key s = some s1 →
      s1.cv_list = s.cv_list.eraseIdx s.current_index.toNat ∧
        s1.base_folder = s.base_folder ∧
        s1.cand_email_map = s.cand_email_map ∧
        s1.config = s.config) ∧
    (hold s = some s2 →
      s2.cv_list = s.cv_list.eraseIdx s.current_index.toNat ∧
        s2.base_folder = s.base_folder ∧
        s2.cand_email_map = s.cand_email_map ∧
        s2.config = s.config) := by
  constructor
  · intro h
    obtain ⟨-, -, -, hb, hc, hcfg, hcv, -, -⟩ := applyAct_spec (a := Act.rej key) h
    exact ⟨hcv, hb, hc, hcfg⟩
  · intro h
    obtain ⟨-, -, -, hb, hc, hcfg, hcv, -, -⟩ := applyAct_spec (a := Act.holdA) h
    exact ⟨hcv, hb, hc, hcfg⟩

/-- Witness for C10 at a concrete folder: both a reject and a hold succeed
and satisfy the frame property. -/
theorem c10_witness :
    (move_current "1" exOpen = some ((move_current "1" exOpen).getD exInit) ∧
      ((move_current "1" exOpen).getD exInit).cv_list =
        exOpen.cv_list.eraseIdx exOpen.current_index.toNat) ∧
    (hold exOpen = some ((hold exOpen).getD exInit) ∧
      ((hold exOpen).getD exInit).config = exOpen.config) := by
  refine ⟨⟨by decide, ?_⟩, ⟨by decide, ?_⟩⟩
  · exact ((c10_move_hold_frame "1" exOpen ((move_current "1" exOpen).getD exInit)
      ((hold exOpen).getD exInit)).1 (by decide)).1
  · exact ((c10_move_hold_frame "1" exOpen ((move_current "1" exOpen).getD exInit)
      ((hold exOpen).getD exInit)).2 (by decide)).2.2.2

lemma undo_destMissing {s : OrgState} {rest : List Operation} {op : Operation} (c : Bool)
    (hstack : s.undo_stack = rest ++ [op])
    (hdest : osExists (osMakedirs s.fs [dirname op.src]) op.dest = false) :
    undo c s =
      ({ s with undo_stack := rest, fs := osMakedirs s.fs [dirname op.src] },
        UndoOutcome.destMissing) := by
  unfold undo
  rw [hstack, List.getLast?_concat]
  simp only [List.dropLast_concat]
  rw [if_pos hdest]

lemma undo_pops {s : OrgState} {rest : List Operation} {op : Operation} (c : Bool)
    (hstack : s.undo_stack = rest ++ [op]) :
    (undo c s).1.undo_stack = rest ∧ (undo c s).2 ≠ UndoOutcome.nothingToUndo := by
  unfold undo
  rw [hstack, List.getLast?_concat]
  simp only [List.dropLast_concat]
  split
  · exact ⟨rfl, by simp⟩
  · split
    · split
      · split
        · exact ⟨rfl, by simp⟩
        · exact ⟨rfl, by simp⟩
      · exact ⟨rfl, by simp⟩
    · exact ⟨rfl, by simp⟩

/-- C5: when the most recent ledger entry's recorded destination no longer
exists on disk, `undo` pops it (permanently), reports the conflict, leaves
`cv_list`, `current_index` and the files untouched, and a following `undo`
call pops the next-older entry. -/
theorem c5_undo_missing_dest_drops_entry (c c2 : Bool) (s : OrgState)
    (rest : List Operation) (op : Operation)
    (hstack : s.undo_stack = rest ++ [op])
    (hdest : osExists (osMakedirs s.fs [dirname op.src]) op.dest = false) :
    (undo c s).2 = UndoOutcome.destMissing ∧
      (undo c s).1.cv_list = s.cv_list ∧
      (undo c s).1.current_index = s.current_index ∧
      (undo c s).1.undo_stack = rest ∧
      (undo c s).1.fs.files = s.fs.files ∧
      ∀ rest2 op2, rest = rest2 ++ [op2] →
        (undo c2 (undo c s).1).1.undo_stack = rest2 ∧
          (undo c2 (undo c s).1).2 ≠ UndoOutcome.nothingToUndo := by
  rw [undo_destMissing c hstack hdest]
  refine ⟨rfl, rfl, rfl, rfl, rfl, ?_⟩
  intro rest2 op2 h2
  exact undo_pops c2 h2

/-- Witness for C5: a concrete two-entry ledger whose newest destination is
gone. -/
theorem c5_witness :
    exStateGone.undo_stack = [exOpGoneOlder] ++ [exOpGone] ∧
      osExists (osMakedirs exStateGone.fs [dirname exOpGone.src]) exOpGone.dest = false ∧
      (undo false exStateGone).2 = UndoOutcome.destMissing ∧
      (undo false exStateGone).1.undo_stack = [exOpGoneOlder] := by
  refine ⟨by decide, by decide, ?_, ?_⟩
  · exact (c5_undo_missing_dest_drops_entry false false exStateGone [exOpGoneOlder] exOpGone
      (by decide) (by decide)).1
  · exact (c5_undo_missing_dest_drops_entry false false exStateGone [exOpGoneOlder] exOpGone
      (by decide) (by decide)).2.2.2.1

/-- C2: importing a CSV row for "Jane Doe" stores the email under the
normalized key `"jane doe"`, but after rejecting `Jane Doe.pdf` the export
looks the raw stem `"Jane Doe"` up without normalizing it, so the exported
row's Email field is empty rather than `jane@x.com`. -/
theorem c2_export_email_lookup_misses :
    dictGet (import_emails [("Jane Doe", "jane@x.com")] exOpen).cand_email_map "jane doe"
        = some "jane@x.com" ∧
      dictGet (import_emails [("Jane Doe", "jane@x.com")] exOpen).cand_email_map "Jane Doe"
        = none ∧
      (move_current "1" (import_emails [("Jane Doe", "jane@x.com")] exOpen)).isSome = true ∧
      export_csv ((move_current "1" (import_emails [("Jane Doe", "jane@x.com")] exOpen)).getD exInit)
        = [⟨"Jane Doe.pdf", "1", "UnsatisfactoryEducation", ""⟩] := by
  decide

lemma open_folder_fs (d : String) (s : OrgState) : (open_folder d s).fs = s.fs := rfl

lemma open_folder_config (d : String) (s : OrgState) :
    (open_folder d s).config = s.config := rfl

lemma open_folder_base (d : String) (s : OrgState) :
    (open_folder d s).base_folder = d := rfl

lemma open_folder_stack (d : String) (s : OrgState) :
    (open_folder d s).undo_stack = [] := rfl

lemma open_folder_cv (d : String) (s : OrgState) :
    (open_folder d s).cv_list =
      sortStrings (((listdir s.fs d).filter globPdfMatch).map (pjoin d)) := rfl

/-- C8 (amended): `open_folder` followed immediately by `export_csv` yields
zero rows, provided the reason folders of the on-disk `Rejected` tree of
the chosen directory are empty; a pre-existing populated `Rejected` tree is
exported as-is (see the counterexample). -/
theorem c8_open_then_export_empty (d : String) (s : OrgState)
    (h : ∀ kf ∈ s.config.reason_map, listdir s.fs (pjoin (pjoin d "Rejected") kf.2) = []) :
    export_csv (open_folder d s) = [] := by
  unfold export_csv
  rw [open_folder_base, open_folder_fs, open_folder_config]
  by_cases hd : d = ""
  · rw [if_pos hd]
  rw [if_neg hd]
  by_cases he : osExists s.fs (pjoin d "Rejected") = false
  · rw [if_pos he]
  rw [if_neg he]
  rw [List.flatMap_eq_nil_iff]
  intro kf hkf
  by_cases hdir : pjoin (pjoin d "Rejected") kf.2 ∈ s.fs.dirs
  · rw [if_pos hdir, h kf hkf]
    rfl
  · rw [if_neg hdir]

/-- Witness for C8 (amended) on a folder with no `Rejected` tree. -/
theorem c8_witness :
    (∀ kf ∈ exInit.config.reason_map,
        listdir exInit.fs (pjoin (pjoin "/b" "Rejected") kf.2) = []) ∧
      export_csv (open_folder "/b" exInit) = [] := by
  refine ⟨by decide, c8_open_then_export_empty "/b" exInit (by decide)⟩

/-- Counterexample to C8 as stated: a folder whose `Rejected` tree was
populated by an earlier session exports its rows immediately after
`open_folder`, before any move. -/
theorem c8_counterexample :
    export_csv (open_folder "/b" exInitRejected) = [⟨"x.pdf", "3", "Other", ""⟩] ∧
      export_csv (open_folder "/b" exInitRejected) ≠ [] := by
  decide

lemma childName_eq_some {d p n : String} :
    childName d p = some n ↔
      p = pjoin d n ∧ n ≠ "" ∧ n.data.contains '/' = false := by
  unfold childName
  constructor
  · intro h
    by_cases h1 : p.data.take (d.data.length + 1) = d.data ++ ['/']
    · rw [if_pos h1] at h
      by_cases h2 : p.data.drop (d.data.length + 1) ≠ [] ∧
          (p.data.drop (d.data.length + 1)).contains '/' = false
      · rw [if_pos h2] at h
        have hn : n = ⟨p.data.drop (d.data.length + 1)⟩ := (Option.some.injEq _ _ ▸ h).symm
        subst hn
        refine ⟨?_, ?_, h2.2⟩
        · apply String.ext
          show p.data = (d ++ "/" ++ ⟨p.data.drop (d.data.length + 1)⟩).data
          rw [String.data_append, String.data_append]
          show p.data = d.data ++ ['/'] ++ _
          conv_lhs => rw [← List.take_append_drop (d.data.length + 1) p.data]
          rw [h1]
        · intro hembed
          have : p.data.drop (d.data.length + 1) = [] := congrArg String.data hembed
          exact h2.1 this
      · rw [if_neg h2] at h
        exact absurd h (by simp)
    · rw [if_neg h1] at h
      exact absurd h (by simp)
  · rintro ⟨rfl, hne, hsl⟩
    have hdata : (pjoin d n).data = (d.data ++ ['/']) ++ n.data := by
      show (d ++ "/" ++ n).data = _
      rw [String.data_append, String.data_append]
    have h1 : (pjoin d n).data.take (d.data.length + 1) = d.data ++ ['/'] := by
      rw [hdata]
      exact List.take_left' (by simp)
    have h2 : (pjoin d n).data.drop (d.data.length + 1) = n.data := by
      rw [hdata]
      exact List.drop_left' (by simp)
    rw [if_pos h1, h2]
    rw [if_pos ⟨fun hh => hne (String.ext hh), hsl⟩]

lemma mem_listdir {fs : FS} {d n : String} :
    n ∈ listdir fs d ↔
      (pjoin d n ∈ fs.files ∨ pjoin d n ∈ fs.dirs) ∧ n ≠ "" ∧
        n.data.contains '/' = false := by
  unfold listdir
  rw [List.mem_filterMap]
  constructor
  · rintro ⟨p, hp, hcn⟩
    obtain ⟨rfl, hne, hsl⟩ := childName_eq_some.1 hcn
    rw [List.mem_append] at hp
    exact ⟨hp, hne, hsl⟩
  · rintro ⟨hmem, hne, hsl⟩
    exact ⟨pjoin d n, List.mem_append.2 hmem, childName_eq_some.2 ⟨rfl, hne, hsl⟩⟩

/-- C7 (amended): the queue built by `open_folder` is sorted in ascending
codepoint-lexicographic order of full path, and contains `d/n` exactly for
the directory entries `n` directly under `d` that match the glob pattern
`*.pdf` the way `glob.glob` applies it on a POSIX system: a case-SENSITIVE
`.pdf` suffix (an upper-case `.PDF` file is excluded, contrary to the
original claim), names starting with a dot excluded. -/
theorem c7_open_folder_listing (d : String) (s : OrgState) :
    (open_folder d s).cv_list.Sorted strLe ∧
      ∀ p, p ∈ (open_folder d s).cv_list ↔
        ∃ n, p = pjoin d n ∧ (pjoin d n ∈ s.fs.files ∨ pjoin d n ∈ s.fs.dirs) ∧
          n ≠ "" ∧ n.data.contains '/' = false ∧
          n.data.head? ≠ some '.' ∧ endsWithStr n ".pdf" = true := by
  constructor
  · rw [open_folder_cv]
    exact List.sorted_insertionSort strLe _
  · intro p
    rw [open_folder_cv]
    unfold sortStrings
    rw [(List.perm_insertionSort strLe _).mem_iff, List.mem_map]
    constructor
    · rintro ⟨n, hn, rfl⟩
      rw [List.mem_filter] at hn
      obtain ⟨hl, hg⟩ := hn
      rw [mem_listdir] at hl
      unfold globPdfMatch at hg
      rw [Bool.and_eq_true, decide_eq_true_eq] at hg
      exact ⟨n, rfl, hl.1, hl.2.1, hl.2.2, hg.1, hg.2⟩
    · rintro ⟨n, rfl, hmem, hne, hsl, hdot, hpdf⟩
      refine ⟨n, ?_, rfl⟩
      rw [List.mem_filter, mem_listdir]
      refine ⟨⟨hmem, hne, hsl⟩, ?_⟩
      unfold globPdfMatch
      rw [Bool.and_eq_true, decide_eq_true_eq]
      exact ⟨hdot, hpdf⟩

/-- Counterexample to C7 as stated: a file whose extension matches `.pdf`
only case-insensitively (`B.PDF`) sits directly in the opened directory yet
is not listed, because `glob.glob('*.pdf')` matches case-sensitively. -/
theorem c7_counterexample :
    (open_folder "/d" exInitUpper).cv_list = [] ∧
      "/d/B.PDF" = pjoin "/d" "B.PDF" ∧
      pjoin "/d" "B.PDF" ∈ exInitUpper.fs.files ∧
      endsWithStr (lowerStr "B.PDF") ".pdf" = true := by
  decide

lemma pushBounded_no_evict {stack : List Operation} {op : Operation} {m : Nat}
    (h : stack.length + 1 ≤ m) : pushBounded stack op m = stack ++ [op] := by
  unfold pushBounded
  rw [if_neg]
  simp only [List.length_append, List.length_cons, List.length_nil]
  omega

lemma insertIdx_eraseIdx_getD :
    ∀ (l : List String) (i : Nat), i < l.length →
      (l.eraseIdx i).insertIdx i (l.getD i "") = l := by
  intro l
  induction l with
  | nil => intro i h; simp at h
  | cons c rest ih =>
    intro i h
    cases i with
    | zero => rfl
    | succ j =>
      have hj : j < rest.length := by simpa using h
      show ((c :: rest).eraseIdx (j + 1)).insertIdx (j + 1) (rest.getD j "") = c :: rest
      rw [List.eraseIdx_cons_succ, List.insertIdx_succ_cons, ih j hj]

lemma undoAll_snoc (n : Nat) (s : OrgState) :
    undoAll (n + 1) s = (undoAll n s).bind undoStep := by
  induction n generalizing s with
  | zero =>
    show (undoStep s).bind (undoAll 0) = (undoAll 0 s).bind undoStep
    cases h : undoStep s with
    | none => simp [undoAll, h]
    | some t => simp [undoAll, h]
  | succ m ih =>
    have h1 : undoAll (m + 1 + 1) s = (undoStep s).bind (undoAll (m + 1)) := rfl
    have h2 : undoAll (m + 1) s = (undoStep s).bind (undoAll m) := rfl
    rw [h1, h2]
    cases h : undoStep s with
    | none => rfl
    | some t =>
      simp only [Option.some_bind]
      exact ih t

lemma undoStep_inv {t u : OrgState} (h : undoStep t = some u) :
    ∃ op, t.undo_stack.getLast? = some op ∧
      u.cv_list = t.cv_list.insertIdx (min op.position t.cv_list.length) op.src ∧
      u.undo_stack = t.undo_stack.dropLast ∧
      u.current_index = ((min op.position t.cv_list.length : Nat) : Int) ∧
      u.base_folder = t.base_folder ∧ u.cand_email_map = t.cand_email_map ∧
      u.config = t.config := by
  unfold undoStep undo at h
  cases hop : t.undo_stack.getLast? with
  | none => rw [hop] at h; exact absurd h (by simp)
  | some op =>
    rw [hop] at h
    simp only [] at h
    by_cases hd : osExists (osMakedirs t.fs [dirname op.src]) op.dest = false
    · rw [if_pos hd] at h
      exact absurd h (by simp)
    rw [if_neg hd] at h
    by_cases hs : osExists (osMakedirs t.fs [dirname op.src]) op.src = true
    · rw [if_pos hs] at h
      simp only [Bool.false_eq_true, if_false] at h
      exact absurd h (by simp)
    · rw [if_neg hs] at h
      simp only [] at h
      refine ⟨op, rfl, ?_, ?_, ?_, ?_, ?_, ?_⟩ <;>
        rw [show u = { t with
            undo_stack := t.undo_stack.dropLast
            fs := fsMove (osMakedirs t.fs [dirname op.src]) op.dest op.src
            cv_list := t.cv_list.insertIdx (min op.position t.cv_list.length) op.src
            current_index := ((min op.position t.cv_list.length : Nat) : Int) }
          from (Option.some.injEq _ _ ▸ h).symm]

lemma runOps_undoAll_restores :
    ∀ (acts : List Act) (s s1 s2 : OrgState),
      s.undo_stack.length + acts.length ≤ s.config.max_undo →
      runOps acts s = some s1 →
      undoAll acts.length s1 = some s2 →
      s2.cv_list = s.cv_list ∧ s2.undo_stack = s.undo_stack ∧
        s2.current_index = s.current_index := by
  intro acts
  induction acts with
  | nil =>
    intro s s1 s2 _ hrun hundo
    have h1 : s1 = s := by simpa [runOps] using hrun.symm
    subst h1
    have h2 : s2 = s1 := by simpa [undoAll] using hundo.symm
    subst h2
    exact ⟨rfl, rfl, rfl⟩
  | cons a as ih =>
    intro s s1 s2 hlen hrun hundo
    have hrun' : (applyAct a s).bind (runOps as) = some s1 := hrun
    cases hstep : applyAct a s with
    | none => rw [hstep] at hrun'; exact absurd hrun' (by simp)
    | some t =>
      rw [hstep] at hrun'
      simp only [Option.some_bind] at hrun'
      obtain ⟨hne, hge0, hlt, hbase, hcand, hcfg, hcv, hidx, op, hsrc, hpos, hstack⟩ :=
        applyAct_spec hstep
      have hidxNat : s.current_index.toNat < s.cv_list.length := by omega
      have hnoev : t.undo_stack = s.undo_stack ++ [op] := by
        rw [hstack, pushBounded_no_evict]
        simp only [List.length_cons] at hlen
        omega
      have hlen' : t.undo_stack.length + as.length ≤ t.config.max_undo := by
        rw [hnoev, hcfg]
        simp only [List.length_append, List.length_cons, List.length_nil,
          List.length_cons] at hlen ⊢
        omega
      have hlength : (a :: as).length = as.length + 1 := by simp
      rw [hlength, undoAll_snoc] at hundo
      cases hu : undoAll as.length s1 with
      | none => rw [hu] at hundo; exact absurd hundo (by simp)
      | some u =>
        rw [hu] at hundo
        simp only [Option.some_bind] at hundo
        obtain ⟨hcvu, hstacku, hidxu⟩ := ih t s1 u hlen' hrun' hu
        obtain ⟨op2, hop2, hcv2, hstack2, hidx2, -, -, -⟩ := undoStep_inv hundo
        have hopeq : op2 = op := by
          rw [hstacku, hnoev, List.getLast?_concat] at hop2
          exact (Option.some.injEq _ _ ▸ hop2).symm
        subst hopeq
        have herase : u.cv_list = s.cv_list.eraseIdx s.current_index.toNat := by
          rw [hcvu, hcv]
        have hlenerase : u.cv_list.length = s.cv_list.length - 1 := by
          rw [herase]
          exact List.length_eraseIdx_of_lt hidxNat
        have hmin : min op2.position u.cv_list.length = s.current_index.toNat := by
          rw [hpos, hlenerase]
          omega
        refine ⟨?_, ?_, ?_⟩
        · rw [hcv2, hmin, herase, hsrc, insertIdx_eraseIdx_getD _ _ hidxNat]
        · rw [hstack2, hstacku, hnoev, List.dropLast_concat]
        · rw [hidx2, hmin]
          omega
  
/-- C1: from any state with an empty undo ledger (in particular the state
`open_folder` produces, with queue contents Q and cursor 0), running at
most `max_undo` successful `move_current`/`hold` operations and then
calling `undo` once per operation in reverse order, with every undo
succeeding, restores `cv_list` to exactly its original contents in the
original order, restores the cursor, and leaves `undo_stack` empty. -/
theorem c1_undo_round_trip_restores_queue (acts : List Act) (s s1 s2 : OrgState)
    (hempty : s.undo_stack = [])
    (hlen : acts.length ≤ s.config.max_undo)
    (hrun : runOps acts s = some s1)
    (hundo : undoAll acts.length s1 = some s2) :
    s2.cv_list = s.cv_list ∧ s2.undo_stack = [] ∧
      s2.current_index = s.current_index := by
  have h := runOps_undoAll_restores acts s s1 s2
    (by rw [hempty]; simpa using hlen) hrun hundo
  exact ⟨h.1, hempty ▸ h.2.1, h.2.2⟩

/-- Witness for C1: a reject followed by a hold on a concrete two-file
folder, then two undos, restore the original queue and cursor. -/
theorem c1_witness :
    exOpen.undo_stack = [] ∧
      [Act.rej "1", Act.holdA].length ≤ exOpen.config.max_undo ∧
      runOps [Act.rej "1", Act.holdA] exOpen =
        some ((runOps [Act.rej "1", Act.holdA] exOpen).getD exInit) ∧
      undoAll 2 ((runOps [Act.rej "1", Act.holdA] exOpen).getD exInit) =
        some ((undoAll 2 ((runOps [Act.rej "1", Act.holdA] exOpen).getD exInit)).getD exInit) ∧
      ((undoAll 2 ((runOps [Act.rej "1", Act.holdA] exOpen).getD exInit)).getD exInit).cv_list =
        exOpen.cv_list ∧
      ((undoAll 2 ((runOps [Act.rej "1", Act.holdA] exOpen).getD exInit)).getD exInit).undo_stack =
        [] := by
  refine ⟨by decide, by decide, by decide, by decide, ?_, ?_⟩
  · exact (c1_undo_round_trip_restores_queue [Act.rej "1", Act.holdA] exOpen
      ((runOps [Act.rej "1", Act.holdA] exOpen).getD exInit)
      ((undoAll 2 ((runOps [Act.rej "1", Act.holdA] exOpen).getD exInit)).getD exInit)
      (by decide) (by decide) (by decide) (by decide)).1
  · exact (c1_undo_round_trip_restores_queue [Act.rej "1", Act.holdA] exOpen
      ((runOps [Act.rej "1", Act.holdA] exOpen).getD exInit)
      ((undoAll 2 ((runOps [Act.rej "1", Act.holdA] exOpen).getD exInit)).getD exInit)
      (by decide) (by decide) (by decide) (by decide)).2.1

lemma getD_mem_of_lt {l : List String} {i : Nat} (h : i < l.length) :
    l.getD i "" ∈ l := by
  rw [List.getD_eq_getElem _ _ h]
  exact List.getElem_mem h

lemma nodup_getD_not_mem_eraseIdx :
    ∀ (l : List String) (i : Nat), l.Nodup → i < l.length →
      l.getD i "" ∉ l.eraseIdx i := by
  intro l
  induction l with
  | nil => intro i _ hi; simp at hi
  | cons c rest ih =>
    intro i hnd hi
    obtain ⟨hcnot, hndrest⟩ := List.nodup_cons.1 hnd
    cases i with
    | zero => simpa using hcnot
    | succ j =>
      have hj : j < rest.length := by simpa using hi
      show rest.getD j "" ∉ c :: rest.eraseIdx j
      intro hmem
      rcases List.mem_cons.1 hmem with heq | hmem2
      · exact hcnot (heq ▸ getD_mem_of_lt hj)
      · exact ih j hndrest hj hmem2

lemma pushBounded_evict {stack : List Operation} {op : Operation} {m : Nat}
    (h : m < stack.length + 1) :
    pushBounded stack op m = (stack ++ [op]).drop 1 := by
  unfold pushBounded
  rw [if_pos]
  simp only [List.length_append, List.length_cons, List.length_nil]
  omega

lemma c3_aux :
    ∀ (acts : List Act) (t t' : OrgState) (op1 : Operation) (rest : List Operation),
      runOps acts t = some t' →
      t.undo_stack = op1 :: rest →
      (∀ o ∈ rest, o.src ≠ op1.src) →
      op1.src ∉ t.cv_list →
      rest.length + 1 ≤ t.config.max_undo →
      rest.length + 1 + acts.length = t.config.max_undo + 1 →
      t'.undo_stack.length = t.config.max_undo ∧ op1 ∉ t'.undo_stack := by
  intro acts
  induction acts with
  | nil =>
    intro t t' op1 rest _ _ _ _ hcap htot
    simp only [List.length_nil] at htot
    omega
  | cons a as ih =>
    intro t t' op1 rest hrun hstack hdist hnotin hcap htot
    have hrun' : (applyAct a t).bind (runOps as) = some t' := hrun
    cases hstep : applyAct a t with
    | none => rw [hstep] at hrun'; exact absurd hrun' (by simp)
    | some u =>
      rw [hstep] at hrun'
      simp only [Option.some_bind] at hrun'
      obtain ⟨hne, hge0, hlt, hbase, hcand, hcfg, hcv, hidx, op, hsrc, hpos, hstacku⟩ :=
        applyAct_spec hstep
      have hidxNat : t.current_index.toNat < t.cv_list.length := by omega
      have hsrcmem : op.src ∈ t.cv_list := hsrc ▸ getD_mem_of_lt hidxNat
      have hopne : op.src ≠ op1.src := fun hh => hnotin (hh ▸ hsrcmem)
      have hnotin' : op1.src ∉ u.cv_list := by
        rw [hcv]
        intro hmem
        exact hnotin ((List.eraseIdx_sublist _ _).subset hmem)
      simp only [List.length_cons] at htot
      by_cases hcase : rest.length + 2 ≤ t.config.max_undo
      · have hustack : u.undo_stack = op1 :: (rest ++ [op]) := by
          rw [hstacku, hstack, pushBounded_no_evict]
          · rfl
          · simp only [List.length_cons]; omega
        have hdist' : ∀ o ∈ rest ++ [op], o.src ≠ op1.src := by
          intro o ho
          rcases List.mem_append.1 ho with h1 | h1
          · exact hdist o h1
          · rw [List.mem_singleton.1 h1]; exact hopne
        have := ih u t' op1 (rest ++ [op]) hrun' hustack hdist' hnotin'
          (by rw [hcfg]; simp only [List.length_append, List.length_cons,
              List.length_nil]; omega)
          (by rw [hcfg]; simp only [List.length_append, List.length_cons,
              List.length_nil]; omega)
        rw [hcfg] at this
        exact this
      · have hmaxeq : rest.length + 1 = t.config.max_undo := by omega
        have hasnil : as = [] := by
          have : as.length = 0 := by omega
          exact List.length_eq_zero.1 this
        subst hasnil
        have ht' : t' = u := by simpa [runOps] using hrun'.symm
        subst ht'
        have hustack : t'.undo_stack = rest ++ [op] := by
          rw [hstacku, hstack, pushBounded_evict]
          · rfl
          · simp only [List.length_cons]; omega
        constructor
        · rw [hustack]
          simp only [List.length_append, List.length_cons, List.length_nil]
          omega
        · rw [hustack]
          intro hmem
          rcases List.mem_append.1 hmem with h1 | h1
          · exact hdist op1 h1 rfl
          · exact hopne (congrArg Operation.src (List.mem_singleton.1 h1)).symm

/-- C3: with `max_undo ≥ 1`, after `max_undo + 1` successful
`move_current`/`hold` operations starting from an empty ledger over a
duplicate-free queue, `undo_stack` holds exactly `max_undo` operations and
the operation recorded by the very first of them is gone (oldest evicted
first, newest retained). -/
theorem c3_eviction_drops_oldest (a : Act) (acts : List Act) (s s1 s' : OrgState)
    (hempty : s.undo_stack = [])
    (hnodup : s.cv_list.Nodup)
    (hmax : 1 ≤ s.config.max_undo)
    (hlen : acts.length = s.config.max_undo)
    (hstep : applyAct a s = some s1)
    (hrun : runOps acts s1 = some s') :
    s'.undo_stack.length = s.config.max_undo ∧
      ∀ op ∈ s1.undo_stack, op ∉ s'.undo_stack := by
  obtain ⟨hne, hge0, hlt, hbase, hcand, hcfg, hcv, hidx, op1, hsrc, hpos, hstack1⟩ :=
    applyAct_spec hstep
  have hidxNat : s.current_index.toNat < s.cv_list.length := by omega
  have hstack1' : s1.undo_stack = [op1] := by
    rw [hstack1, hempty, pushBounded_no_evict] <;> simp [hmax]
  have hnotin : op1.src ∉ s1.cv_list := by
    rw [hcv, hsrc]
    exact nodup_getD_not_mem_eraseIdx _ _ hnodup hidxNat
  have haux := c3_aux acts s1 s' op1 [] hrun (by rw [hstack1']) (by simp) hnotin
    (by rw [hcfg]; simpa using hmax)
    (by rw [hcfg]; simp only [List.length_nil]; omega)
  rw [hcfg] at haux
  refine ⟨haux.1, ?_⟩
  intro op hmem
  rw [hstack1'] at hmem
  rw [List.mem_singleton.1 hmem]
  exact haux.2

/-- Witness for C3: with `max_undo = 1`, a reject then a hold leave exactly
one ledger entry, and the reject's entry is gone. -/
theorem c3_witness :
    exOpen1.undo_stack = [] ∧
      exOpen1.cv_list.Nodup ∧
      1 ≤ exOpen1.config.max_undo ∧
      [Act.holdA].length = exOpen1.config.max_undo ∧
      applyAct (Act.rej "1") exOpen1 =
        some ((applyAct (Act.rej "1") exOpen1).getD exInit1) ∧
      runOps [Act.holdA] ((applyAct (Act.rej "1") exOpen1).getD exInit1) =
        some ((runOps [Act.holdA]
          ((applyAct (Act.rej "1") exOpen1).getD exInit1)).getD exInit1) ∧
      ((runOps [Act.holdA]
          ((applyAct (Act.rej "1") exOpen1).getD exInit1)).getD exInit1).undo_stack.length =
        exOpen1.config.max_undo := by
  refine ⟨by decide, by decide, by decide, by decide, by decide, by decide, ?_⟩
  exact (c3_eviction_drops_oldest (Act.rej "1") [Act.holdA] exOpen1
    ((applyAct (Act.rej "1") exOpen1).getD exInit1)
    ((runOps [Act.holdA] ((applyAct (Act.rej "1") exOpen1).getD exInit1)).getD exInit1)
    (by decide) (by decide) (by decide) (by decide) (by decide) (by decide)).1

lemma decDigitChar_inj {a b : Nat} (ha : a < 10) (hb : b < 10)
    (h : decDigitChar a = decDigitChar b) : a = b := by
  have hfin : ∀ x y : Fin 10, decDigitChar x.val = decDigitChar y.val → x = y := by decide
  have := hfin ⟨a, ha⟩ ⟨b, hb⟩ h
  exact congrArg Fin.val this

lemma map_decDigitChar_inj :
    ∀ (l1 l2 : List Nat), (∀ x ∈ l1, x < 10) → (∀ x ∈ l2, x < 10) →
      l1.map decDigitChar = l2.map decDigitChar → l1 = l2 := by
  intro l1
  induction l1 with
  | nil =>
    intro l2 _ _ h
    cases l2 with
    | nil => rfl
    | cons c t => exact absurd h (by simp)
  | cons c t ih =>
    intro l2 hb1 hb2 h
    cases l2 with
    | nil => exact absurd h (by simp)
    | cons c2 t2 =>
      simp only [List.map_cons, List.cons.injEq] at h
      have hc := decDigitChar_inj (hb1 c (by simp)) (hb2 c2 (by simp)) h.1
      have ht := ih t2 (fun x hx => hb1 x (by simp [hx])) (fun x hx => hb2 x (by simp [hx])) h.2
      rw [hc, ht]

lemma natDec_data_eq (n : Nat) (h : n ≠ 0) :
    (natDec n).data = (Nat.digits 10 n).reverse.map decDigitChar := by
  unfold natDec
  rw [if_neg h]

lemma natDec_inj {m n : Nat} (h : natDec m = natDec n) : m = n := by
  have hdata := congrArg String.data h
  have hzero : ∀ k : Nat, k ≠ 0 →
      (Nat.digits 10 k).reverse.map decDigitChar ≠ ['0'] := by
    intro k hk hcon
    have h0 : ([0] : List Nat).map decDigitChar = ['0'] := rfl
    have hbound : ∀ x ∈ (Nat.digits 10 k).reverse, x < 10 := by
      intro x hx
      exact Nat.digits_lt_base (by omega) (List.mem_reverse.1 hx)
    have heq := map_decDigitChar_inj _ [0] hbound (by intro x hx; simp at hx; omega)
      (by rw [hcon, h0])
    have hdig : Nat.digits 10 k = [0] := by
      have := congrArg List.reverse heq
      simpa using this
    have := Nat.ofDigits_digits 10 k
    rw [hdig] at this
    simp [Nat.ofDigits] at this
    exact hk this.symm
  by_cases hm : m = 0 <;> by_cases hn : n = 0
  · omega
  · rw [hm] at hdata
    rw [natDec_data_eq n hn] at hdata
    exact absurd hdata.symm (hzero n hn)
  · rw [hn] at hdata
    rw [natDec_data_eq m hm] at hdata
    exact absurd hdata (hzero m hm)
  · rw [natDec_data_eq m hm, natDec_data_eq n hn] at hdata
    have hbm : ∀ x ∈ (Nat.digits 10 m).reverse, x < 10 := fun x hx =>
      Nat.digits_lt_base (by omega) (List.mem_reverse.1 hx)
    have hbn : ∀ x ∈ (Nat.digits 10 n).reverse, x < 10 := fun x hx =>
      Nat.digits_lt_base (by omega) (List.mem_reverse.1 hx)
    have heq := map_decDigitChar_inj _ _ hbm hbn hdata
    have hdig : Nat.digits 10 m = Nat.digits 10 n := by
      have := congrArg List.reverse heq
      simpa using this
    have h1 := Nat.ofDigits_digits 10 m
    have h2 := Nat.ofDigits_digits 10 n
    rw [← h1, ← h2, hdig]

lemma natDec_data_ne_nil (n : Nat) : (natDec n).data ≠ [] := by
  by_cases h : n = 0
  · subst h; intro hcon; exact absurd hcon (by decide)
  · rw [natDec_data_eq n h]
    intro hcon
    have : Nat.digits 10 n = [] := by
      have := congrArg List.length hcon
      simp at this
      simpa using congrArg List.reverse
        (List.length_eq_zero.1 (by simpa using this))
    exact (Nat.digits_ne_nil_iff_ne_zero.2 h) this

lemma pjoin_right_cancel {d x y : String} (h : pjoin d x = pjoin d y) : x = y := by
  have hd := congrArg String.data h
  simp only [pjoin, String.data_append] at hd
  exact String.ext (List.append_cancel_left hd)

lemma mkCand_inj {base ext : String} {j k : Nat}
    (h : mkCand base ext j = mkCand base ext k) : j = k := by
  have hd := congrArg String.data h
  simp only [mkCand, String.data_append] at hd
  have h1 := List.append_cancel_right hd
  have h2 := List.append_cancel_left h1
  exact natDec_inj (String.ext h2)

lemma append_ne_mkCand (base ext : String) (k : Nat) :
    base ++ ext ≠ mkCand base ext k := by
  intro h
  have hd := congrArg (fun s => s.data.length) h
  simp only [mkCand, String.data_append, List.length_append] at hd
  have hne := natDec_data_ne_nil k
  have hlen : (natDec k).data.length ≠ 0 := fun hc => hne (List.length_eq_zero.1 hc)
  have hu : ("_" : String).data.length = 1 := rfl
  omega

lemma splitext_append (s : String) : (splitext s).1 ++ (splitext s).2 = s := by
  unfold splitext
  cases h : splitextIdx s.data with
  | none =>
    apply String.ext
    rw [String.data_append]
    simp
  | some i =>
    apply String.ext
    rw [String.data_append]
    exact List.take_append_drop i s.data

lemma visitedPaths_eq (dir base ext : String) :
    ∀ (fuel counter : Nat) (cand : String),
      visitedPaths dir base ext fuel counter cand =
        pjoin dir cand ::
          (List.range' counter fuel).map (fun k => pjoin dir (mkCand base ext k)) := by
  intro fuel
  induction fuel with
  | zero => intro counter cand; rfl
  | succ f ih =>
    intro counter cand
    show pjoin dir cand :: visitedPaths dir base ext f (counter + 1) (mkCand base ext counter) = _
    rw [ih (counter + 1) (mkCand base ext counter), List.range'_succ]
    rfl

lemma uniqueDestAux_all_ex (ex : String → Bool) (dir base ext : String) :
    ∀ (fuel counter : Nat) (cand : String),
      ex (pjoin dir (uniqueDestAux ex dir base ext fuel counter cand)) = true →
      ∀ q ∈ visitedPaths dir base ext fuel counter cand, ex q = true := by
  intro fuel
  induction fuel with
  | zero =>
    intro counter cand h q hq
    have : q = pjoin dir cand := by simpa [visitedPaths] using hq
    subst this
    exact h
  | succ f ih =>
    intro counter cand h q hq
    by_cases hc : ex (pjoin dir cand) = true
    · have haux : uniqueDestAux ex dir base ext (f + 1) counter cand =
          uniqueDestAux ex dir base ext f (counter + 1) (mkCand base ext counter) := by
        show (if ex (pjoin dir cand) = true then _ else _) = _
        rw [if_pos hc]
      rcases List.mem_cons.1 (by simpa [visitedPaths] using hq) with rfl | hq2
      · exact hc
      · exact ih (counter + 1) (mkCand base ext counter) (by rw [← haux]; exact h) q hq2
    · have haux : uniqueDestAux ex dir base ext (f + 1) counter cand = cand := by
        show (if ex (pjoin dir cand) = true then _ else _) = _
        rw [if_neg hc]
      rw [haux] at h
      exact absurd h hc

lemma unique_dest_fresh (fs : FS) (dir name : String) :
    osExists fs (pjoin dir (unique_dest fs dir name)) = false := by
  by_cases hcon : osExists fs (pjoin dir (unique_dest fs dir name)) = false
  · exact hcon
  exfalso
  have hex : osExists fs (pjoin dir (unique_dest fs dir name)) = true := by
    revert hcon
    cases osExists fs (pjoin dir (unique_dest fs dir name)) <;> simp
  have hall := uniqueDestAux_all_ex (fun p => osExists fs p) dir
    (splitext name).1 (splitext name).2
    (fs.files.length + fs.dirs.length + 1) 1 name hex
  rw [visitedPaths_eq] at hall
  have hnd : (pjoin dir name ::
      (List.range' 1 (fs.files.length + fs.dirs.length + 1)).map
        (fun k => pjoin dir (mkCand (splitext name).1 (splitext name).2 k))).Nodup := by
    rw [List.nodup_cons]
    constructor
    · intro hmem
      obtain ⟨k, _, hk⟩ := List.mem_map.1 hmem
      have hname : name = mkCand (splitext name).1 (splitext name).2 k :=
        pjoin_right_cancel hk.symm
      exact append_ne_mkCand (splitext name).1 (splitext name).2 k
        (by rw [splitext_append]; exact hname)
    · refine List.Nodup.map_on ?_ (List.nodup_range' 1 _)
      intro x _ y _ hxy
      exact mkCand_inj (pjoin_right_cancel hxy)
  have hsub : (pjoin dir name ::
      (List.range' 1 (fs.files.length + fs.dirs.length + 1)).map
        (fun k => pjoin dir (mkCand (splitext name).1 (splitext name).2 k))) ⊆
      fs.files ++ fs.dirs := by
    intro q hq
    have hexq : osExists fs q = true := hall q hq
    unfold osExists at hexq
    rcases Bool.or_eq_true_iff.1 hexq with h1 | h1
    · exact List.mem_append.2 (Or.inl (List.elem_iff.1 h1))
    · exact List.mem_append.2 (Or.inr (List.elem_iff.1 h1))
  have hle := (hnd.subperm hsub).length_le
  simp only [List.length_cons, List.length_map, List.length_range',
    List.length_append] at hle
  omega

lemma uniqueDestAux_fuel_irrel (ex : String → Bool) (dir base ext : String) :
    ∀ (fuel fuel' counter : Nat) (cand : String),
      ex (pjoin dir (uniqueDestAux ex dir base ext fuel counter cand)) = false →
      fuel ≤ fuel' →
      uniqueDestAux ex dir base ext fuel' counter cand =
        uniqueDestAux ex dir base ext fuel counter cand := by
  intro fuel
  induction fuel with
  | zero =>
    intro fuel' counter cand h _
    cases fuel' with
    | zero => rfl
    | succ f' =>
      show (if ex (pjoin dir cand) = true then _ else _) = _
      rw [if_neg]
      · rfl
      · intro hc
        rw [show uniqueDestAux ex dir base ext 0 counter cand = cand from rfl] at h
        rw [h] at hc
        exact Bool.false_ne_true hc
  | succ f ih =>
    intro fuel' counter cand h hle
    obtain ⟨f2, rfl⟩ : ∃ f2, fuel' = f2 + 1 := ⟨fuel' - 1, by omega⟩
    by_cases hc : ex (pjoin dir cand) = true
    · have hstep : uniqueDestAux ex dir base ext (f + 1) counter cand =
          uniqueDestAux ex dir base ext f (counter + 1) (mkCand base ext counter) := by
        show (if ex (pjoin dir cand) = true then _ else _) = _
        rw [if_pos hc]
      have hstep' : uniqueDestAux ex dir base ext (f2 + 1) counter cand =
          uniqueDestAux ex dir base ext f2 (counter + 1) (mkCand base ext counter) := by
        show (if ex (pjoin dir cand) = true then _ else _) = _
        rw [if_pos hc]
      rw [hstep, hstep']
      exact ih f2 (counter + 1) (mkCand base ext counter) (by rw [← hstep]; exact h)
        (by omega)
    · have hstep : uniqueDestAux ex dir base ext (f + 1) counter cand = cand := by
        show (if ex (pjoin dir cand) = true then _ else _) = _
        rw [if_neg hc]
      have hstep' : uniqueDestAux ex dir base ext (f2 + 1) counter cand = cand := by
        show (if ex (pjoin dir cand) = true then _ else _) = _
        rw [if_neg hc]
      rw [hstep, hstep']

lemma uniqueDestAux_addone (ex ex' : String → Bool) (dir base ext p : String)
    (hagree : ∀ q, ex' q = (ex q || (q == p))) :
    ∀ (fuel counter : Nat) (cand : String),
      ex (pjoin dir (uniqueDestAux ex dir base ext fuel counter cand)) = false →
      p ≠ pjoin dir (uniqueDestAux ex dir base ext fuel counter cand) →
      uniqueDestAux ex' dir base ext fuel counter cand =
        uniqueDestAux ex dir base ext fuel counter cand := by
  intro fuel
  induction fuel with
  | zero => intro counter cand _ _; rfl
  | succ f ih =>
    intro counter cand hfresh hne
    by_cases hc : ex (pjoin dir cand) = true
    · have hstep : uniqueDestAux ex dir base ext (f + 1) counter cand =
          uniqueDestAux ex dir base ext f (counter + 1) (mkCand base ext counter) := by
        show (if ex (pjoin dir cand) = true then _ else _) = _
        rw [if_pos hc]
      have hc' : ex' (pjoin dir cand) = true := by
        rw [hagree, hc, Bool.true_or]
      have hstep' : uniqueDestAux ex' dir base ext (f + 1) counter cand =
          uniqueDestAux ex' dir base ext f (counter + 1) (mkCand base ext counter) := by
        show (if ex' (pjoin dir cand) = true then _ else _) = _
        rw [if_pos hc']
      rw [hstep, hstep']
      exact ih (counter + 1) (mkCand base ext counter) (by rw [← hstep]; exact hfresh)
        (by rw [← hstep]; exact hne)
    · have hstep : uniqueDestAux ex dir base ext (f + 1) counter cand = cand := by
        show (if ex (pjoin dir cand) = true then _ else _) = _
        rw [if_neg hc]
      rw [hstep] at hne
      have hc' : ex' (pjoin dir cand) = false := by
        rw [hagree]
        have h1 : ex (pjoin dir cand) = false := by
          revert hc
          cases ex (pjoin dir cand) <;> simp
        have h2 : (pjoin dir cand == p) = false := by
          have : pjoin dir cand ≠ p := fun hh => hne hh.symm
          simpa using this
        rw [h1, h2]
        rfl
      have hstep' : uniqueDestAux ex' dir base ext (f + 1) counter cand = cand := by
        show (if ex' (pjoin dir cand) = true then _ else _) = _
        rw [if_neg (by rw [hc']; exact Bool.false_ne_true)]
      rw [hstep, hstep']

/-- C6: `unique_dest` always returns a name whose joined path does not
collide with any existing file or directory in the target directory, and
it is idempotent: adding any file except at the previously returned
candidate path (in particular, calling again before any file is created
there) leaves the result unchanged. -/
theorem c6_unique_dest_fresh_idempotent (fs : FS) (dir name p : String) :
    osExists fs (pjoin dir (unique_dest fs dir name)) = false ∧
      (p ≠ pjoin dir (unique_dest fs dir name) →
        unique_dest ⟨p :: fs.files, fs.dirs⟩ dir name = unique_dest fs dir name) := by
  refine ⟨unique_dest_fresh fs dir name, ?_⟩
  intro hne
  have hfresh := unique_dest_fresh fs dir name
  have hagree : ∀ q, osExists ⟨p :: fs.files, fs.dirs⟩ q = (osExists fs q || (q == p)) := by
    intro q
    show ((p :: fs.files).contains q || fs.dirs.contains q) = _
    rw [List.contains_cons]
    unfold osExists
    cases hqp : q == p <;> cases h1 : fs.files.contains q <;>
      cases h2 : fs.dirs.contains q <;> rfl
  have haddone := uniqueDestAux_addone (fun q => osExists fs q)
    (fun q => osExists ⟨p :: fs.files, fs.dirs⟩ q) dir
    (splitext name).1 (splitext name).2 p hagree
    (fs.files.length + fs.dirs.length + 1) 1 name hfresh hne
  have hfresh' : (fun q => osExists ⟨p :: fs.files, fs.dirs⟩ q)
      (pjoin dir (uniqueDestAux (fun q => osExists ⟨p :: fs.files, fs.dirs⟩ q) dir
        (splitext name).1 (splitext name).2
        (fs.files.length + fs.dirs.length + 1) 1 name)) = false := by
    rw [haddone]
    show osExists ⟨p :: fs.files, fs.dirs⟩ (pjoin dir (unique_dest fs dir name)) = false
    rw [hagree, hfresh]
    have hbeq : (pjoin dir (unique_dest fs dir name) == p) = false := by
      have : pjoin dir (unique_dest fs dir name) ≠ p := fun hh => hne hh.symm
      simpa using this
    rw [hbeq]
    rfl
  have hirrel := uniqueDestAux_fuel_irrel (fun q => osExists ⟨p :: fs.files, fs.dirs⟩ q)
    dir (splitext name).1 (splitext name).2
    (fs.files.length + fs.dirs.length + 1) (fs.files.length + fs.dirs.length + 2)
    1 name hfresh' (by omega)
  show uniqueDestAux (fun q => osExists ⟨p :: fs.files, fs.dirs⟩ q) dir
      (splitext name).1 (splitext name).2
      ((p :: fs.files).length + fs.dirs.length + 1) 1 name = unique_dest fs dir name
  have hlen : (p :: fs.files).length + fs.dirs.length + 1 =
      fs.files.length + fs.dirs.length + 2 := by
    simp only [List.length_cons]
    omega
  rw [hlen, hirrel]
  exact haddone

/-- Witness for C6's idempotence hypothesis at a concrete filesystem. -/
theorem c6_witness :
    ("/d/c.pdf" : String) ≠ pjoin "/d" (unique_dest ⟨["/d/b.pdf"], []⟩ "/d" "a.pdf") ∧
      unique_dest ⟨"/d/c.pdf" :: ["/d/b.pdf"], []⟩ "/d" "a.pdf" =
        unique_dest ⟨["/d/b.pdf"], []⟩ "/d" "a.pdf" := by
  refine ⟨by decide, ?_⟩
  exact (c6_unique_dest_fresh_idempotent ⟨["/d/b.pdf"], []⟩ "/d" "a.pdf" "/d/c.pdf").2
    (by decide)

lemma pushBounded_sublist (stack : List Operation) (op : Operation) (m : Nat) :
    (pushBounded stack op m).Sublist (stack ++ [op]) := by
  unfold pushBounded
  simp only []
  split
  · exact List.drop_sublist 1 _
  · exact List.Sublist.refl _

lemma undo_cases (c : Bool) (s : OrgState) :
    (undo c s).1 = s ∨
      ((undo c s).1.cv_list = s.cv_list ∧
        (undo c s).1.current_index = s.current_index ∧
        (undo c s).1.undo_stack = s.undo_stack.dropLast) ∨
      (∃ op, s.undo_stack.getLast? = some op ∧
        (undo c s).1.cv_list =
          s.cv_list.insertIdx (min op.position s.cv_list.length) op.src ∧
        (undo c s).1.current_index = ((min op.position s.cv_list.length : Nat) : Int) ∧
        (undo c s).1.undo_stack = s.undo_stack.dropLast) := by
  unfold undo
  cases hop : s.undo_stack.getLast? with
  | none => left; rfl
  | some op =>
    simp only []
    split
    · right; left; exact ⟨rfl, rfl, rfl⟩
    · split
      · split
        · split
          · right; right; exact ⟨op, rfl, rfl, rfl, rfl⟩
          · right; left; exact ⟨rfl, rfl, rfl⟩
        · right; left; exact ⟨rfl, rfl, rfl⟩
      · right; right; exact ⟨op, rfl, rfl, rfl, rfl⟩

lemma fullInv_applyAct {a : Act} {t t' : OrgState}
    (hinv : FullInv t) (h : applyAct a t = some t') : FullInv t' := by
  obtain ⟨⟨hnodup, hcvinv⟩, hsrcs, hmapnd⟩ := hinv
  obtain ⟨hne, hge0, hlt, hbase, hcand, hcfg, hcv, hidx, op, hsrc, hpos, hstack⟩ :=
    applyAct_spec h
  have hidxNat : t.current_index.toNat < t.cv_list.length := by omega
  have hsrcmem : op.src ∈ t.cv_list := hsrc ▸ getD_mem_of_lt hidxNat
  have hsub : t'.cv_list.Sublist t.cv_list := by
    rw [hcv]; exact List.eraseIdx_sublist _ _
  have hsubstack : t'.undo_stack.Sublist (t.undo_stack ++ [op]) := by
    rw [hstack]; exact pushBounded_sublist _ _ _
  refine ⟨⟨hsub.nodup hnodup, ?_⟩, ?_, ?_⟩
  · rw [hidx]
    by_cases hnil : t.cv_list.eraseIdx t.current_index.toNat = []
    · rw [if_pos hnil]
      rw [hcv]
      simp [hnil]
    · rw [if_neg hnil]
      have hlenpos : 0 < (t.cv_list.eraseIdx t.current_index.toNat).length :=
        List.length_pos.2 hnil
      rw [hcv]
      simp only [if_neg hnil]
      by_cases hc2 : ((t.cv_list.eraseIdx t.current_index.toNat).length : Int) ≤
          (t.current_index.toNat : Int)
      · rw [if_pos hc2]
        constructor <;> omega
      · rw [if_neg hc2]
        constructor <;> omega
  · intro o ho
    have homem := hsubstack.subset ho
    rcases List.mem_append.1 homem with h1 | h1
    · intro hc
      exact hsrcs o h1 (hsub.subset hc)
    · rw [List.mem_singleton.1 h1]
      rw [hcv, hsrc]
      exact nodup_getD_not_mem_eraseIdx _ _ hnodup hidxNat
  · have hnd2 : ((t.undo_stack ++ [op]).map (fun o => o.src)).Nodup := by
      rw [List.map_append]
      rw [List.nodup_append]
      refine ⟨hmapnd, by simp, ?_⟩
      intro x hx hy
      obtain ⟨o, ho, rfl⟩ := List.mem_map.1 hx
      have : op.src = o.src := by
        have := List.mem_singleton.1 (by simpa using hy)
        simpa using this.symm
      exact hsrcs o ho (this ▸ hsrcmem)
    exact (hsubstack.map (fun o => o.src)).nodup hnd2

lemma fullInv_undo (c : Bool) {u : OrgState} (hinv : FullInv u) :
    FullInv (undo c u).1 := by
  obtain ⟨⟨hnodup, hcvinv⟩, hsrcs, hmapnd⟩ := hinv
  rcases undo_cases c u with heq | ⟨hcv, hidx, hstack⟩ | ⟨op, hop, hcv, hidx, hstack⟩
  · rw [heq]
    exact ⟨⟨hnodup, hcvinv⟩, hsrcs, hmapnd⟩
  · refine ⟨⟨hcv ▸ hnodup, ?_⟩, ?_, ?_⟩
    · rw [hcv, hidx]
      exact hcvinv
    · intro o ho
      rw [hcv]
      exact hsrcs o (List.mem_of_mem_dropLast (hstack ▸ ho))
    · rw [hstack]
      exact ((List.dropLast_sublist _).map _).nodup hmapnd
  · have hnonnil : u.undo_stack ≠ [] := by
      intro hnil
      rw [hnil] at hop
      exact absurd hop (by simp)
    have hlasteq : u.undo_stack.getLast hnonnil = op := by
      have := List.getLast?_eq_getLast u.undo_stack hnonnil
      rw [hop] at this
      exact (Option.some.injEq _ _ ▸ this).symm
    have hdecomp : u.undo_stack.dropLast ++ [op] = u.undo_stack := by
      rw [← hlasteq]
      exact List.dropLast_append_getLast hnonnil
    have hopmem : op ∈ u.undo_stack := by
      rw [← hdecomp]
      simp
    have hopsrc : op.src ∉ u.cv_list := hsrcs op hopmem
    have hminle : min op.position u.cv_list.length ≤ u.cv_list.length :=
      Nat.min_le_right _ _
    have hperm := List.perm_insertIdx op.src u.cv_list hminle
    have hsrcne : ∀ o ∈ u.undo_stack.dropLast, o.src ≠ op.src := by
      intro o ho hc
      have hndsplit : ((u.undo_stack.dropLast ++ [op]).map (fun x => x.src)).Nodup := by
        rw [hdecomp]; exact hmapnd
      rw [List.map_append, List.nodup_append] at hndsplit
      exact hndsplit.2.2 (List.mem_map.2 ⟨o, ho, rfl⟩) (by simp [hc])
    refine ⟨⟨?_, ?_⟩, ?_, ?_⟩
    · rw [hcv]
      exact hperm.nodup_iff.2 (List.nodup_cons.2 ⟨hopsrc, hnodup⟩)
    · have hlen : (undo c u).1.cv_list.length = u.cv_list.length + 1 := by
        rw [hcv]
        exact List.length_insertIdx _ _ hminle
      have hnenil : (undo c u).1.cv_list ≠ [] := by
        intro hnil
        rw [hnil] at hlen
        simp at hlen
      rw [if_neg hnenil, hidx]
      constructor
      · omega
      · rw [hlen]
        have := Nat.min_le_right op.position u.cv_list.length
        omega
    · intro o ho
      rw [hstack] at ho
      rw [hcv]
      intro hmem
      rcases (List.mem_insertIdx hminle).1 hmem with h1 | h1
      · exact hsrcne o ho h1
      · exact hsrcs o (List.mem_of_mem_dropLast ho) h1
    · rw [hstack]
      exact ((List.dropLast_sublist _).map _).nodup hmapnd

lemma fullInv_open_folder (d : String) (s : OrgState)
    (h : (s.fs.files ++ s.fs.dirs).Nodup) : FullInv (open_folder d s) := by
  have hlistdir : (listdir s.fs d).Nodup := by
    unfold listdir
    refine List.Nodup.filterMap ?_ h
    intro a a' b hb hb'
    obtain ⟨ha, -, -⟩ := childName_eq_some.1 (Option.mem_def.1 hb)
    obtain ⟨ha', -, -⟩ := childName_eq_some.1 (Option.mem_def.1 hb')
    rw [ha, ha']
  have hmapnd : (((listdir s.fs d).filter globPdfMatch).map (pjoin d)).Nodup :=
    List.Nodup.map_on (fun x _ y _ hxy => pjoin_right_cancel hxy)
      (hlistdir.filter _)
  have hcvnd : (open_folder d s).cv_list.Nodup := by
    rw [open_folder_cv]
    exact ((List.perm_insertionSort strLe _).nodup_iff).2 hmapnd
  have hidxeq : (open_folder d s).current_index =
      (if sortStrings (((listdir s.fs d).filter globPdfMatch).map (pjoin d)) = []
       then -1 else 0) := rfl
  refine ⟨⟨hcvnd, ?_⟩, ?_, ?_⟩
  · by_cases hnil : sortStrings (((listdir s.fs d).filter globPdfMatch).map (pjoin d)) = []
    · rw [show (open_folder d s).cv_list =
          sortStrings (((listdir s.fs d).filter globPdfMatch).map (pjoin d)) from rfl]
      rw [if_pos hnil, hidxeq, if_pos hnil]
    · rw [show (open_folder d s).cv_list =
          sortStrings (((listdir s.fs d).filter globPdfMatch).map (pjoin d)) from rfl]
      rw [if_neg hnil, hidxeq, if_neg hnil]
      have hpos : 0 < (sortStrings (((listdir s.fs d).filter globPdfMatch).map
          (pjoin d))).length := List.length_pos.2 hnil
      constructor
      · omega
      · omega
  · intro o ho
    rw [open_folder_stack] at ho
    simp at ho
  · rw [open_folder_stack]
    simp

/-- C4 (amended): the CvQueue invariant is established by `open_folder` (on
a duplicate-free filesystem) and preserved by `move_current`, `hold` and
`undo` through the ledger-queue invariant `FullInv` those operations
maintain; `load_session_state` is excluded, since it only clamps
`current_index` from above (see the counterexample). -/
theorem c4_invariant_after_operations (d : String) (a : Act) (c : Bool)
    (s t u : OrgState) :
    ((s.fs.files ++ s.fs.dirs).Nodup → FullInv (open_folder d s)) ∧
      (∀ t', FullInv t → applyAct a t = some t' → FullInv t') ∧
      (FullInv u → FullInv (undo c u).1) ∧
      (∀ v : OrgState, FullInv v → CvInvariant v) :=
  ⟨fullInv_open_folder d s,
   fun _ hi hstep => fullInv_applyAct hi hstep,
   fun hi => fullInv_undo c hi,
   fun _ hv => hv.1⟩

/-- Witness for C4 (amended) on a concrete folder: the invariant holds
after opening, after a reject, and after an undo. -/
theorem c4_witness :
    (exInit.fs.files ++ exInit.fs.dirs).Nodup ∧
      FullInv (open_folder "/b" exInit) ∧
      FullInv exOpen ∧
      applyAct (Act.rej "1") exOpen =
        some ((applyAct (Act.rej "1") exOpen).getD exInit) ∧
      FullInv ((applyAct (Act.rej "1") exOpen).getD exInit) ∧
      FullInv (undo false ((applyAct (Act.rej "1") exOpen).getD exInit)).1 ∧
      CvInvariant exOpen := by
  refine ⟨by decide, ?_, by decide, by decide, ?_, ?_, ?_⟩
  · exact (c4_invariant_after_operations "/b" (Act.rej "1") false exInit exOpen
      exOpen).1 (by decide)
  · exact (c4_invariant_after_operations "/b" (Act.rej "1") false exInit exOpen
      exOpen).2.1 ((applyAct (Act.rej "1") exOpen).getD exInit) (by decide) (by decide)
  · exact (c4_invariant_after_operations "/b" (Act.rej "1") false exInit exOpen
      ((applyAct (Act.rej "1") exOpen).getD exInit)).2.2.1 (by decide)
  · exact (c4_invariant_after_operations "/b" (Act.rej "1") false exInit exOpen
      exOpen).2.2.2 exOpen (by decide)

/-- Counterexample to C4 as stated: `load_session_state` only clamps the
cursor from above, so a state file carrying `current_index = -2` with a
non-empty queue yields a state violating the CvQueue invariant. -/
theorem c4_counterexample :
    ¬ CvInvariant (load_session_state ⟨"/b", ["/b/a.pdf"], -2, [], []⟩ exInit) ∧
      (load_session_state ⟨"/b", ["/b/a.pdf"], -2, [], []⟩ exInit).current_index = -2 ∧
      (load_session_state ⟨"/b", ["/b/a.pdf"], -2, [], []⟩ exInit).cv_list =
        ["/b/a.pdf"] := by
  decide
